import Mathlib

/-!
Verification of the cross-source deduplication engine of the llm-news
repository (`src/llm_news/dedup.py`).

The Python module is shallowly embedded below.  Strings are manipulated as
`List Char` (one entry per Unicode code point, matching Python's view of
`str`), wrapped into `String` at the API boundary.  The relevant parts of
CPython's `urllib.parse` (`urlparse`, `parse_qs`, `urlencode`,
`urlunparse`), which `normalize_url` calls, are embedded as well.
Python `dict`s used as indexes are modelled by association lists where an
insertion shadows earlier bindings, and Python `set`s by membership in a
list.  ASCII is assumed for the case-folding / digit / word-character
classes (the repository's URLs and the identifiers the claims quantify
over are ASCII).
-/

set_option linter.unusedVariables false

namespace LlmNews

/-- NewsItem (models.py): the fields read by the deduplication engine.
Fields populated by later pipeline stages (score, summary, timestamps) are
not consulted by `dedup.py` and are omitted. -/
structure NewsItem where
  title : String
  url : String
  source : String
  source_name : String := ""
  content : String := ""
deriving DecidableEq, Repr, Inhabited

/-- History: the two persistent sets handed to `deduplicate` /
`save_history` (a Python `dict` with keys "urls" and "canonical_keys",
each a `set[str]`; modelled as lists, membership giving the set view). -/
structure History where
  urls : List String
  canonical_keys : List String
deriving DecidableEq, Repr, Inhabited

/- ── character/string helpers (Python str methods on code-point lists) ── -/

/-- Python `str.strip()` (whitespace on both ends). -/
def trimData (cs : List Char) : List Char :=
  ((cs.dropWhile Char.isWhitespace).reverse.dropWhile Char.isWhitespace).reverse

/-- Python `str.lower()` (ASCII model). -/
def lowerData (cs : List Char) : List Char := cs.map Char.toLower

/-- Split at the first occurrence of `c`: `some (before, after)` when `c`
occurs, `none` otherwise. -/
def splitAtFirst (c : Char) : List Char → Option (List Char × List Char)
  | [] => none
  | x :: xs =>
    if x = c then some ([], xs)
    else (splitAtFirst c xs).map (fun p => (x :: p.1, p.2))

/-- Split at the first occurrence of `c`, keeping everything with an empty
second component when `c` does not occur (Python `s.split(c, 1)` guarded by
`if c in s`). -/
def splitFirstOn (c : Char) (cs : List Char) : List Char × List Char :=
  match splitAtFirst c cs with
  | some p => p
  | none => (cs, [])

/- ── CPython urllib.parse.urlparse (the parts normalize_url consults) ── -/

/-- Characters allowed in a URL scheme (CPython `scheme_chars`). -/
def isSchemeChar (c : Char) : Bool :=
  c.isAlpha || c.isDigit || c = '+' || c = '-' || c = '.'

/-- CPython `urlsplit` scheme detection: a leading ASCII letter, scheme
characters up to the first ':'.  Returns `(lowercased scheme, rest)`, or
`([], input)` when there is no scheme. -/
def splitScheme (cs : List Char) : List Char × List Char :=
  match splitAtFirst ':' cs with
  | some (pre, post) =>
    if pre ≠ [] ∧ (pre.headD ' ').isAlpha ∧ pre.all isSchemeChar then
      (lowerData pre, post)
    else ([], cs)
  | none => ([], cs)

/-- CPython `_splitnetloc`: the netloc runs to the next '/', '?' or '#'. -/
def netlocDelim (c : Char) : Bool := c = '/' || c = '?' || c = '#'

/-- CPython removes tab, carriage return and newline anywhere in the URL
(`_UNSAFE_URL_BYTES_TO_REMOVE`). -/
def removeUnsafe (cs : List Char) : List Char :=
  cs.filter (fun c => ¬(c = '\t' ∨ c = '\r' ∨ c = '\n'))

/-- Index of the last occurrence of `c`, if any. -/
def lastIdxOf (c : Char) (cs : List Char) : Option Nat :=
  match splitAtFirst c cs.reverse with
  | some (pre, _) => some (cs.length - 1 - pre.length)
  | none => none

/-- Index of the first occurrence of `c` at or after position `start`
(Python `s.find(c, start)` for in-range `start`). -/
def findFrom (c : Char) (start : Nat) (cs : List Char) : Option Nat :=
  (splitAtFirst c (cs.drop start)).map (fun p => start + p.1.length)

/-- CPython `_splitparams`: split `;params` off the last path segment. -/
def splitPathParams (cs : List Char) : List Char × List Char :=
  match lastIdxOf '/' cs with
  | some j =>
    match findFrom ';' j cs with
    | some i => (cs.take i, cs.drop (i + 1))
    | none => (cs, [])
  | none =>
    match splitAtFirst ';' cs with
    | some p => p
    | none => (cs, [])

/-- CPython `uses_params`: schemes for which `urlparse` splits params. -/
def usesParams : List (List Char) :=
  [[], "ftp".data, "hdl".data, "prospero".data, "http".data, "imap".data,
   "https".data, "shttp".data, "rtsp".data, "rtspu".data, "sip".data,
   "sips".data, "mms".data, "sftp".data, "tel".data]

/-- Result of `urlparse` (the `params` component is dropped by
`normalize_url`, which passes `""` for it to `urlunparse`). -/
structure ParsedUrl where
  scheme : List Char
  netloc : List Char
  path : List Char
  query : List Char
  fragment : List Char
deriving DecidableEq, Repr, Inhabited

/-- CPython `urlparse` on an already-`strip()`ed URL: remove unsafe bytes,
split scheme, then netloc (after "//"), then fragment at the first '#',
then query at the first '?', then params off the path. -/
def pyUrlparse (cs0 : List Char) : ParsedUrl :=
  let cs := removeUnsafe cs0
  let sr := splitScheme cs
  let scheme := sr.1
  let rest1 := sr.2
  let nlr :=
    if rest1.take 2 = ['/', '/'] then
      ((rest1.drop 2).takeWhile (fun c => ¬ netlocDelim c),
       (rest1.drop 2).dropWhile (fun c => ¬ netlocDelim c))
    else ([], rest1)
  let netloc := nlr.1
  let fr := splitFirstOn '#' nlr.2
  let qr := splitFirstOn '?' fr.1
  let pathParams :=
    if scheme ∈ usesParams ∧ qr.1.contains ';' then splitPathParams qr.1
    else (qr.1, [])
  ⟨scheme, netloc, pathParams.1, qr.2, fr.2⟩

/-- Part of the netloc after the last '@' (CPython `rpartition('@')`). -/
def afterLastAt (nl : List Char) : List Char :=
  match splitAtFirst '@' nl.reverse with
  | some (pre, _) => pre.reverse
  | none => nl

/-- CPython `_hostinfo`: (host, port-string) from a netloc, handling a
bracketed IPv6 literal. -/
def hostinfoOf (netloc : List Char) : List Char × List Char :=
  let hi := afterLastAt netloc
  match splitAtFirst '[' hi with
  | some (_, afterBr) =>
    let host := (splitFirstOn ']' afterBr).1
    let afterKet := (splitFirstOn ']' afterBr).2
    (host, (splitFirstOn ':' afterKet).2)
  | none =>
    match splitAtFirst ':' hi with
    | some p => p
    | none => (hi, [])

/-- Value of an ASCII decimal digit string. -/
def digitsToNat (cs : List Char) : Nat :=
  cs.foldl (fun n c => n * 10 + (c.toNat - '0'.toNat)) 0

/-- CPython `SplitResult.port`: `none` for an absent or empty port string;
the decimal value for an in-range digit string.  (CPython raises on a
malformed port; no claim exercises that path.) -/
def portOfNetloc (netloc : List Char) : Option Nat :=
  let p := (hostinfoOf netloc).2
  if p = [] then none
  else if p.all Char.isDigit then
    let n := digitsToNat p
    if n ≤ 65535 then some n else none
  else none

/-- CPython `SplitResult.hostname`, lowercased, with `None` rendered as ""
(the code does `(parsed.hostname or "").lower()`). -/
def hostnameOf (netloc : List Char) : List Char :=
  lowerData (hostinfoOf netloc).1

/- ── CPython parse_qs / urlencode ── -/

/-- Hexadecimal digit value. -/
def hexVal (c : Char) : Option Nat :=
  if c.isDigit then some (c.toNat - '0'.toNat)
  else if 'a' ≤ c ∧ c ≤ 'f' then some (c.toNat - 'a'.toNat + 10)
  else if 'A' ≤ c ∧ c ≤ 'F' then some (c.toNat - 'A'.toNat + 10)
  else none

/-- Percent-decoding (CPython `unquote`; one decoded byte per `%XX`,
single-byte model of the UTF-8 decode step). -/
def unquoteData : List Char → List Char
  | [] => []
  | '%' :: a :: b :: rest =>
    match hexVal a, hexVal b with
    | some x, some y => Char.ofNat (16 * x + y) :: unquoteData rest
    | _, _ => '%' :: unquoteData (a :: b :: rest)
  | c :: rest => c :: unquoteData rest

/-- CPython query-component decode: '+' to space, then percent-decode. -/
def unqPlus (cs : List Char) : List Char :=
  unquoteData (cs.map (fun c => if c = '+' then ' ' else c))

/-- Split on every occurrence of `c` (Python `s.split(c)`). -/
def splitOnCharAux (c : Char) : List Char → List Char → List (List Char)
  | [], acc => [acc.reverse]
  | x :: xs, acc =>
    if x = c then acc.reverse :: splitOnCharAux c xs []
    else splitOnCharAux c xs (x :: acc)

/-- Split on every occurrence of `c` (Python `s.split(c)`). -/
def splitOnChar (c : Char) (cs : List Char) : List (List Char) :=
  splitOnCharAux c cs []

/-- CPython `parse_qsl(qs, keep_blank_values=True)`: fields split on '&',
empty fields skipped, each field split at its first '=' (a field without
'=' keeps a blank value), names and values decoded. -/
def parse_qsl (qs : List Char) : List (List Char × List Char) :=
  (splitOnChar '&' qs).foldr
    (fun field acc =>
      if field = [] then acc
      else
        match splitAtFirst '=' field with
        | some (n, v) => (unqPlus n, unqPlus v) :: acc
        | none => (unqPlus field, []) :: acc)
    []

/-- Append a value under a key in an insertion-ordered multi-dict. -/
def addQsVal (acc : List (List Char × List (List Char))) (k v : List Char) :
    List (List Char × List (List Char)) :=
  match acc with
  | [] => [(k, [v])]
  | (k0, vs) :: rest =>
    if k0 = k then (k0, vs ++ [v]) :: rest else (k0, vs) :: addQsVal rest k v

/-- CPython `parse_qs(qs, keep_blank_values=True)`: group `parse_qsl`
pairs into an insertion-ordered dict of value lists. -/
def parse_qs (qs : List Char) : List (List Char × List (List Char)) :=
  (parse_qsl qs).foldl (fun acc kv => addQsVal acc kv.1 kv.2) []

/-- Tracking/analytics query params to strip (`_TRACKING_PARAMS`). -/
def _TRACKING_PARAMS : List (List Char) :=
  ["utm_source".data, "utm_medium".data, "utm_campaign".data,
   "utm_content".data, "utm_term".data, "ref".data, "source".data,
   "fbclid".data, "gclid".data, "mc_cid".data, "mc_eid".data]

/-- The dict comprehension in `normalize_url`: keep parameters whose
lowercased key is not on the tracking block-list. -/
def stripTracking (l : List (List Char × List (List Char))) :
    List (List Char × List (List Char)) :=
  l.filter (fun kv => ¬ lowerData kv.1 ∈ _TRACKING_PARAMS)

/-- Uppercase hexadecimal digit. -/
def toHexDigit (n : Nat) : Char :=
  if n < 10 then Char.ofNat ('0'.toNat + n) else Char.ofNat ('A'.toNat + n - 10)

/-- UTF-8 bytes of a code point. -/
def utf8Bytes (c : Char) : List Nat :=
  let v := c.toNat
  if v < 0x80 then [v]
  else if v < 0x800 then [0xC0 + v / 0x40, 0x80 + v % 0x40]
  else if v < 0x10000 then
    [0xE0 + v / 0x1000, 0x80 + (v / 0x40) % 0x40, 0x80 + v % 0x40]
  else
    [0xF0 + v / 0x40000, 0x80 + (v / 0x1000) % 0x40,
     0x80 + (v / 0x40) % 0x40, 0x80 + v % 0x40]

/-- Characters `quote` never escapes (`_ALWAYS_SAFE`). -/
def quoteSafe (c : Char) : Bool :=
  c.isAlphanum || c = '_' || c = '.' || c = '-' || c = '~'

/-- CPython `quote_plus` with empty `safe`: keep always-safe characters,
encode ' ' as '+', percent-encode everything else byte-wise. -/
def quotePlus (cs : List Char) : List Char :=
  (cs.map (fun c =>
    if quoteSafe c then [c]
    else if c = ' ' then ['+']
    else (utf8Bytes c).foldr
      (fun b acc => '%' :: toHexDigit (b / 16) :: toHexDigit (b % 16) :: acc)
      [])).flatten

/-- CPython `urlencode(query, doseq=True)` on a dict of value lists. -/
def urlencodeData (l : List (List Char × List (List Char))) : List Char :=
  List.intercalate ['&']
    ((l.map (fun kv => kv.2.map (fun v => quotePlus kv.1 ++ '=' :: quotePlus v))).flatten)

/-- CPython `urlunparse(("https", netloc, path, "", query, ""))` as built
by `normalize_url` (scheme fixed, params and fragment empty).  Since the
scheme "https" is in `uses_netloc`, the "//" is emitted unless the netloc
is empty and the path already starts with "//". -/
def renderUrl (netloc path query : List Char) : List Char :=
  let u := path
  let u :=
    if netloc ≠ [] ∨ u.take 2 ≠ ['/', '/'] then
      '/' :: '/' :: (netloc ++ (if u ≠ [] ∧ u.take 1 ≠ ['/'] then '/' :: u else u))
    else u
  let u := "https:".data ++ u
  if query ≠ [] then u ++ '?' :: query else u

/- ── normalize_url (dedup.py lines 49-89) ── -/

/-- Host normalization in `normalize_url`: strip a leading "www.". -/
def stripWww (host : List Char) : List Char :=
  if host.take 4 = "www.".data then host.drop 4 else host

/-- Path normalization in `normalize_url`: `path.rstrip("/")`. -/
def rstripSlashes (p : List Char) : List Char :=
  (p.reverse.dropWhile (fun c => c = '/')).reverse

/-- Netloc rebuilding in `normalize_url`: keep a non-standard port. -/
def netlocWithPort (host : List Char) (port : Option Nat) : List Char :=
  match port with
  | some pt =>
    if pt ≠ 0 ∧ pt ≠ 80 ∧ pt ≠ 443 then host ++ ':' :: Nat.toDigits 10 pt
    else host
  | none => host

/-- Query normalization in `normalize_url`: parse, drop tracking params,
re-encode; empty input or empty filtered dict gives an empty query. -/
def normalizeQuery (q : List Char) : List Char :=
  if q ≠ [] then
    let filtered := stripTracking (parse_qs q)
    if filtered ≠ [] then urlencodeData filtered else []
  else []

/-- `normalize_url` on code points: strip; empty input returned as is;
otherwise parse, force https, lowercase host and drop "www.", keep a
non-standard port, strip trailing slashes, filter tracking params, drop
the fragment, and reassemble. -/
def normalizeUrlData (cs : List Char) : List Char :=
  let url := trimData cs
  if url = [] then url
  else
    let parsed := pyUrlparse url
    let host := stripWww (hostnameOf parsed.netloc)
    let netloc := netlocWithPort host (portOfNetloc parsed.netloc)
    renderUrl netloc (rstripSlashes parsed.path) (normalizeQuery parsed.query)

/-- dedup.py `normalize_url`. -/
def normalize_url (s : String) : String := ⟨normalizeUrlData s.data⟩

/- ── extract_canonical_key (dedup.py lines 98-122) ── -/

/-- Match a literal at the head of the input, returning the remainder. -/
def litMatch : List Char → List Char → Option (List Char)
  | [], cs => some cs
  | _ :: _, [] => none
  | l :: ls, c :: cs => if c = l then litMatch ls cs else none

/-- Match the capture group `(\d{4}\.\d{4,5})` at the head of the input
(four digits, a dot, then greedily five digits if available, else four),
returning the captured characters. -/
def arxivIdAt : List Char → Option (List Char)
  | a :: b :: c :: d :: '.' :: rest =>
    if a.isDigit ∧ b.isDigit ∧ c.isDigit ∧ d.isDigit then
      match rest with
      | e1 :: e2 :: e3 :: e4 :: rest2 =>
        if e1.isDigit ∧ e2.isDigit ∧ e3.isDigit ∧ e4.isDigit then
          match rest2 with
          | e5 :: _ =>
            if e5.isDigit then some [a, b, c, d, '.', e1, e2, e3, e4, e5]
            else some [a, b, c, d, '.', e1, e2, e3, e4]
          | [] => some [a, b, c, d, '.', e1, e2, e3, e4]
        else none
      | _ => none
    else none
  | _ => none

/-- Python `pattern.search` for the patterns of `_ARXIV_ID_PATTERNS`: the
leftmost position where the literal part followed by the id group
matches, returning the captured id. -/
def searchArxiv (lit : List Char) : List Char → Option (List Char)
  | [] => none
  | c :: rest =>
    match litMatch lit (c :: rest) with
    | some after =>
      match arxivIdAt after with
      | some id => some id
      | none => searchArxiv lit rest
    | none => searchArxiv lit rest

/-- The literal parts of `_ARXIV_ID_PATTERNS`, in order. -/
def _ARXIV_ID_PATTERNS : List (List Char) :=
  ["arxiv.org/abs/".data, "arxiv.org/pdf/".data, "huggingface.co/papers/".data]

/-- dedup.py `extract_canonical_key`. -/
def extract_canonical_key (item : NewsItem) : Option String :=
  _ARXIV_ID_PATTERNS.findSome? (fun lit =>
    (searchArxiv lit item.url.data).map (fun id => ⟨"arxiv:".data ++ id⟩))

/- ── normalize_title (dedup.py lines 129-142) ── -/

/-- Python regex `\w` (ASCII model): alphanumeric or underscore. -/
def isWordChar (c : Char) : Bool := c.isAlphanum || c = '_'

/-- Python regex `re.sub(r"\s+", " ", ·)`: collapse whitespace runs. -/
def collapseWsAux : Bool → List Char → List Char
  | _, [] => []
  | prevWs, c :: rest =>
    if c.isWhitespace then
      if prevWs then collapseWsAux true rest
      else ' ' :: collapseWsAux true rest
    else c :: collapseWsAux false rest

/-- `normalize_title` on code points: lowercase and strip, replace
non-word non-space characters by a space, collapse whitespace, strip. -/
def normalizeTitleData (cs : List Char) : List Char :=
  let t := trimData (lowerData cs)
  let t := t.map (fun c => if isWordChar c || c.isWhitespace then c else ' ')
  trimData (collapseWsAux false t)

/-- dedup.py `normalize_title`. -/
def normalize_title (s : String) : String := ⟨normalizeTitleData s.data⟩

/-- dedup.py `_MIN_TITLE_LENGTH`. -/
def _MIN_TITLE_LENGTH : Nat := 15

/- ── source priority (dedup.py lines 27-37, 205-216) ── -/

/-- dedup.py `SOURCE_PRIORITY`. -/
def SOURCE_PRIORITY : List (String × Nat) :=
  [("arxiv", 1), ("blog", 1), ("github", 1), ("hf_models", 1),
   ("hf_papers", 2), ("github_trending", 2), ("pwc", 2),
   ("hackernews", 3), ("reddit", 3)]

/-- `SOURCE_PRIORITY.get(source, 5)`. -/
def sourcePriority (src : String) : Nat := (SOURCE_PRIORITY.lookup src).getD 5

/-- dedup.py `_pick_preferred`: the incoming item wins only on strictly
better (lower) priority; ties keep the existing item. -/
def _pick_preferred (existing incoming : NewsItem) : NewsItem :=
  if sourcePriority incoming.source < sourcePriority existing.source then incoming
  else existing

/- ── deduplicate (dedup.py lines 219-355) ── -/

/-- The "norm_title and len(norm_title) >= _MIN_TITLE_LENGTH" guard. -/
def isLongTitle (t : String) : Prop := t ≠ "" ∧ _MIN_TITLE_LENGTH ≤ t.length

instance (t : String) : Decidable (isLongTitle t) := by
  unfold isLongTitle; infer_instance

/-- The "canon_key and canon_key in history_canon" guard (a `None` key is
falsy). -/
def canonInHistory (canon_key : Option String) (history_canon : List String) : Prop :=
  match canon_key with
  | some k => k ∈ history_canon
  | none => False

instance (ck : Option String) (hc : List String) : Decidable (canonInHistory ck hc) := by
  cases ck <;> simp [canonInHistory] <;> infer_instance

/-- Python dict insertion (later bindings shadow earlier ones). -/
def dput (m : List (String × Nat)) (k : String) (v : Nat) : List (String × Nat) :=
  (k, v) :: m

/-- Python dict lookup. -/
def dget (m : List (String × Nat)) (k : String) : Option Nat := m.lookup k

/-- The per-run state of `deduplicate`: the result list and the three
key-to-position indexes. -/
structure DedupState where
  result : List NewsItem
  canonical_index : List (String × Nat)
  norm_url_index : List (String × Nat)
  title_index : List (String × Nat)
deriving Repr, Inhabited

/-- The body of the `for item in items` loop of `deduplicate`: history
filter, then canonical-key, normalized-URL and title layers, each
resolving a duplicate via `_pick_preferred` (replacement happens exactly
when the incoming item has strictly lower priority, the Python
`preferred is not existing` test) and refreshing the other indexes, else
appending and registering the item. -/
def dedupStep (history_urls normalized_history_urls history_canon : List String)
    (st : DedupState) (item : NewsItem) : DedupState :=
  let norm_url := normalize_url item.url
  let canon_key := extract_canonical_key item
  let norm_title := normalize_title item.title
  if item.url ∈ history_urls ∨ norm_url ∈ normalized_history_urls then st
  else if canonInHistory canon_key history_canon then st
  else
    match canon_key.bind (dget st.canonical_index) with
    | some idx =>
      let existing := st.result.getD idx default
      if sourcePriority item.source < sourcePriority existing.source then
        { result := st.result.set idx (_pick_preferred existing item),
          canonical_index := st.canonical_index,
          norm_url_index := dput st.norm_url_index norm_url idx,
          title_index :=
            if isLongTitle norm_title then dput st.title_index norm_title idx
            else st.title_index }
      else st
    | none =>
      match dget st.norm_url_index norm_url with
      | some idx =>
        let existing := st.result.getD idx default
        if sourcePriority item.source < sourcePriority existing.source then
          { result := st.result.set idx (_pick_preferred existing item),
            canonical_index :=
              match canon_key with
              | some k => dput st.canonical_index k idx
              | none => st.canonical_index,
            norm_url_index := st.norm_url_index,
            title_index :=
              if isLongTitle norm_title then dput st.title_index norm_title idx
              else st.title_index }
        else st
      | none =>
        match (if isLongTitle norm_title then dget st.title_index norm_title else none) with
        | some idx =>
          let existing := st.result.getD idx default
          if sourcePriority item.source < sourcePriority existing.source then
            { result := st.result.set idx (_pick_preferred existing item),
              canonical_index :=
                match canon_key with
                | some k => dput st.canonical_index k idx
                | none => st.canonical_index,
              norm_url_index := dput st.norm_url_index norm_url idx,
              title_index := st.title_index }
          else st
        | none =>
          let idx := st.result.length
          { result := st.result ++ [item],
            canonical_index :=
              match canon_key with
              | some k => dput st.canonical_index k idx
              | none => st.canonical_index,
            norm_url_index := dput st.norm_url_index norm_url idx,
            title_index :=
              if isLongTitle norm_title then dput st.title_index norm_title idx
              else st.title_index }

/-- dedup.py `deduplicate`. -/
def deduplicate (items : List NewsItem) (history : History) : List NewsItem :=
  let history_urls := history.urls
  let history_canon := history.canonical_keys
  let normalized_history_urls := history_urls.map normalize_url
  (items.foldl (dedupStep history_urls normalized_history_urls history_canon)
    ⟨[], [], [], []⟩).result

/- ── save_history (dedup.py lines 171-199) ── -/

/-- Python string comparison: lexicographic on code points. -/
def lexLe : List Char → List Char → Bool
  | [], _ => true
  | _ :: _, [] => false
  | a :: as, b :: bs =>
    if a.toNat < b.toNat then true
    else if b.toNat < a.toNat then false
    else lexLe as bs

/-- Python `<=` on strings. -/
def strLe (a b : String) : Bool := lexLe a.data b.data

/-- Python `<=` on strings, as a relation. -/
def strLeRel (a b : String) : Prop := strLe a b = true

instance : DecidableRel strLeRel := fun a b => by unfold strLeRel; infer_instance

/-- Python `sorted(s)` for a set `s` (modelled as a list): the distinct
elements in ascending code-point-lexicographic order. -/
def sortedSet (l : List String) : List String := l.dedup.insertionSort strLeRel

/-- Python `l[-cap:]` applied only past the cap (`if len(l) > cap:
l = l[-cap:]`). -/
def truncateTail (cap : Nat) (l : List String) : List String :=
  if cap < l.length then l.drop (l.length - cap) else l

/-- The persisted part of dedup.py `save_history`: each collection is
sorted and, past its retention cap, only the last (greatest) entries are
kept (`url_list[-10_000:]`, `canon_list[-5_000:]`). -/
def save_history (history : History) : History :=
  ⟨truncateTail 10000 (sortedSet history.urls),
   truncateTail 5000 (sortedSet history.canonical_keys)⟩

/- ── derived predicates used in the statements ── -/

/-- Layer 0 of `deduplicate`: the item is suppressed by history (raw URL
in `history.urls`, normalized URL among the normalized history URLs, or
canonical key in `history.canonical_keys`). -/
def suppressedBy (history : History) (it : NewsItem) : Prop :=
  it.url ∈ history.urls ∨
  normalize_url it.url ∈ history.urls.map normalize_url ∨
  canonInHistory (extract_canonical_key it) history.canonical_keys

instance (history : History) (it : NewsItem) : Decidable (suppressedBy history it) := by
  unfold suppressedBy; infer_instance

/-- Two items are judged duplicates of each other: they share a canonical
key, or their URLs normalize identically, or their titles normalize
identically to a string long enough for the title layer. -/
def judgedDup (a b : NewsItem) : Prop :=
  (∃ k, extract_canonical_key a = some k ∧ extract_canonical_key b = some k) ∨
  normalize_url a.url = normalize_url b.url ∨
  (normalize_title a.title = normalize_title b.title ∧
    isLongTitle (normalize_title b.title))

instance (a b : NewsItem) : Decidable (judgedDup a b) := by
  unfold judgedDup
  have : Decidable (∃ k, extract_canonical_key a = some k ∧ extract_canonical_key b = some k) := by
    refine decidable_of_iff
      (extract_canonical_key a ≠ none ∧ extract_canonical_key a = extract_canonical_key b) ?_
    cases ha : extract_canonical_key a <;> cases hb : extract_canonical_key b <;>
      simp [eq_comm]
  infer_instance

/-- A dedup state whose indexes only name keys of items actually present
in the result list (true of every state built from appends alone). -/
def IdxFaithful (st : DedupState) : Prop :=
  (∀ k, (dget st.canonical_index k).isSome →
    ∃ a ∈ st.result, extract_canonical_key a = some k) ∧
  (∀ u, (dget st.norm_url_index u).isSome →
    ∃ a ∈ st.result, normalize_url a.url = u) ∧
  (∀ t, (dget st.title_index t).isSome →
    ∃ a ∈ st.result, normalize_title a.title = t ∧ isLongTitle t)

/-- Whitespace-URL invariant of the running dedup state: any result slot
holding an item whose raw URL strips to nothing is the slot that the
empty normalized URL currently maps to (hence there is at most one). -/
def WsInv (st : DedupState) : Prop :=
  ∀ i (hi : i < st.result.length),
    trimData ((st.result.get ⟨i, hi⟩).url.data) = [] →
    dget st.norm_url_index "" = some i

/-! ## Supporting lemmas -/

theorem _pick_preferred_eq_incoming {a b : NewsItem}
    (h : sourcePriority b.source < sourcePriority a.source) :
    _pick_preferred a b = b := by
  simp [_pick_preferred, h]

/-- Whatever `dedupStep` does, every item of the new result list is either
an old result item or the processed item itself, the latter only when the
item passed the history filter. -/
theorem mem_result_dedupStep {hu nhu hc : List String} {st : DedupState}
    {item y : NewsItem}
    (hy : y ∈ (dedupStep hu nhu hc st item).result) :
    y ∈ st.result ∨
      (y = item ∧ ¬(item.url ∈ hu ∨ normalize_url item.url ∈ nhu) ∧
        ¬ canonInHistory (extract_canonical_key item) hc) := by
  simp only [dedupStep] at hy
  split at hy
  · exact Or.inl hy
  next hhist =>
  split at hy
  · exact Or.inl hy
  next hcanon =>
  split at hy
  next idx heq =>
    split at hy
    next hlt =>
      rcases List.mem_or_eq_of_mem_set hy with h | h
      · exact Or.inl h
      · exact Or.inr ⟨h.trans (_pick_preferred_eq_incoming hlt), hhist, hcanon⟩
    · exact Or.inl hy
  next =>
  split at hy
  next idx heq =>
    split at hy
    next hlt =>
      rcases List.mem_or_eq_of_mem_set hy with h | h
      · exact Or.inl h
      · exact Or.inr ⟨h.trans (_pick_preferred_eq_incoming hlt), hhist, hcanon⟩
    · exact Or.inl hy
  next =>
  split at hy
  next idx heq =>
    split at hy
    next hlt =>
      rcases List.mem_or_eq_of_mem_set hy with h | h
      · exact Or.inl h
      · exact Or.inr ⟨h.trans (_pick_preferred_eq_incoming hlt), hhist, hcanon⟩
    · exact Or.inl hy
  next =>
    rcases List.mem_append.mp hy with h | h
    · exact Or.inl h
    · exact Or.inr ⟨List.mem_singleton.mp h, hhist, hcanon⟩

/-- Folding `dedupStep` over a batch only ever puts batch items that
passed the history filter (or items already present) into the result. -/
theorem mem_result_foldl {hu nhu hc : List String} :
    ∀ (items : List NewsItem) (st : DedupState) (y : NewsItem),
      y ∈ (items.foldl (dedupStep hu nhu hc) st).result →
      y ∈ st.result ∨
        (y ∈ items ∧ ¬(y.url ∈ hu ∨ normalize_url y.url ∈ nhu) ∧
          ¬ canonInHistory (extract_canonical_key y) hc)
  | [], st, y, hy => Or.inl hy
  | item :: items, st, y, hy => by
    rcases mem_result_foldl items (dedupStep hu nhu hc st item) y hy with h | h
    · rcases mem_result_dedupStep h with h' | h'
      · exact Or.inl h'
      · exact Or.inr ⟨h'.1 ▸ List.mem_cons_self item items, h'.1 ▸ h'.2.1, h'.1 ▸ h'.2.2⟩
    · exact Or.inr ⟨List.mem_cons_of_mem item h.1, h.2⟩

/-- Every output item of `deduplicate` is an input item that passed the
history filter. -/
theorem mem_deduplicate {items : List NewsItem} {history : History} {y : NewsItem}
    (hy : y ∈ deduplicate items history) :
    y ∈ items ∧ ¬ suppressedBy history y := by
  simp only [deduplicate] at hy
  rcases mem_result_foldl items _ y hy with h | h
  · simp at h
  · refine ⟨h.1, ?_⟩
    intro hs
    rcases hs with hs | hs | hs
    · exact h.2.1 (Or.inl hs)
    · exact h.2.1 (Or.inr hs)
    · exact h.2.2 hs

/-! ## Claim C4 -/

/-- C4: every item of the output list of `deduplicate` is one of the items
of the input list.  No new items are fabricated and no field of a
surviving entry is mutated: the output arises from the input only by
dropping items and by whole-item replacement of a kept entry with another
input item. -/
theorem dedup_output_items_from_input (items : List NewsItem) (history : History)
    (y : NewsItem) (hy : y ∈ deduplicate items history) : y ∈ items :=
  (mem_deduplicate hy).1

/-- Witness for C4 at a concrete batch. -/
theorem dedup_output_items_from_input_witness :
    (⟨"t", "https://a.com/x", "blog", "", ""⟩ : NewsItem) ∈
      [(⟨"t", "https://a.com/x", "blog", "", ""⟩ : NewsItem),
       ⟨"u", "https://b.com/y", "reddit", "", ""⟩] :=
  dedup_output_items_from_input
    [⟨"t", "https://a.com/x", "blog", "", ""⟩, ⟨"u", "https://b.com/y", "reddit", "", ""⟩]
    ⟨[], []⟩ _ (by decide)

/-! ## Claim C3 -/

/-- C3: an input item whose raw URL is in `history.urls`, or whose
normalized URL is in the set of normalized history URLs, or whose
canonical key is in `history.canonical_keys`, does not appear in the
output of `deduplicate`, regardless of the rest of the batch. -/
theorem history_suppressed_absent (items : List NewsItem) (history : History)
    (it : NewsItem)
    (h : it.url ∈ history.urls ∨
         normalize_url it.url ∈ history.urls.map normalize_url ∨
         canonInHistory (extract_canonical_key it) history.canonical_keys) :
    it ∉ deduplicate items history :=
  fun hy => (mem_deduplicate hy).2 h

/-- Witness for C3 at a concrete item and history. -/
theorem history_suppressed_absent_witness :
    (⟨"t", "https://x.com/a", "blog", "", ""⟩ : NewsItem) ∉
      deduplicate
        [⟨"t", "https://x.com/a", "blog", "", ""⟩,
         ⟨"u", "https://b.com/y", "reddit", "", ""⟩]
        ⟨["https://x.com/a"], []⟩ :=
  history_suppressed_absent _ _ _ (Or.inl (by decide))

/-! ## Claim C2 -/

theorem dget_dput (m : List (String × Nat)) (k : String) (v : Nat) (k' : String) :
    dget (dput m k v) k' = if k' = k then some v else dget m k' := by
  by_cases h : k' = k
  · subst h; simp [dget, dput, List.lookup]
  · simp [dget, dput, List.lookup, beq_false_of_ne h, h]

/-- When the state is faithful, every item of the batch passes the history
filter, no batch item is judged a duplicate of a result item, and the
batch is pairwise non-duplicate, the fold appends every item. -/
theorem foldl_result_of_no_dup {hu nhu hc : List String} :
    ∀ (ys : List NewsItem) (st : DedupState),
      IdxFaithful st →
      (∀ b ∈ ys, ¬(b.url ∈ hu ∨ normalize_url b.url ∈ nhu) ∧
        ¬ canonInHistory (extract_canonical_key b) hc) →
      (∀ a ∈ st.result, ∀ b ∈ ys, ¬ judgedDup a b) →
      ys.Pairwise (fun a b => ¬ judgedDup a b) →
      (ys.foldl (dedupStep hu nhu hc) st).result = st.result ++ ys
  | [], st, _, _, _, _ => by simp
  | b :: ys, st, hfaith, hhist, hcross, hpair => by
    have hb := hhist b (List.mem_cons_self b ys)
    -- the three layers find nothing for b
    have hcanon : (extract_canonical_key b).bind (dget st.canonical_index) = none := by
      cases hk : extract_canonical_key b with
      | none => rfl
      | some k =>
        cases hg : dget st.canonical_index k with
        | none => exact hg
        | some idx =>
          exfalso
          obtain ⟨a, ha, hak⟩ := hfaith.1 k (by simp [hg])
          exact hcross a ha b (List.mem_cons_self b ys) (Or.inl ⟨k, hak, hk⟩)
    have hurl : dget st.norm_url_index (normalize_url b.url) = none := by
      cases hg : dget st.norm_url_index (normalize_url b.url) with
      | none => rfl
      | some idx =>
        exfalso
        obtain ⟨a, ha, hau⟩ := hfaith.2.1 (normalize_url b.url) (by simp [hg])
        exact hcross a ha b (List.mem_cons_self b ys) (Or.inr (Or.inl hau))
    have htitle : (if isLongTitle (normalize_title b.title) then
        dget st.title_index (normalize_title b.title) else none) = none := by
      split
      next hlong =>
        cases hg : dget st.title_index (normalize_title b.title) with
        | none => rfl
        | some idx =>
          exfalso
          obtain ⟨a, ha, hat, _⟩ := hfaith.2.2 (normalize_title b.title) (by simp [hg])
          exact hcross a ha b (List.mem_cons_self b ys) (Or.inr (Or.inr ⟨hat, hlong⟩))
      · rfl
    have hstep : dedupStep hu nhu hc st b =
        { result := st.result ++ [b],
          canonical_index :=
            match extract_canonical_key b with
            | some k => dput st.canonical_index k st.result.length
            | none => st.canonical_index,
          norm_url_index := dput st.norm_url_index (normalize_url b.url) st.result.length,
          title_index :=
            if isLongTitle (normalize_title b.title) then
              dput st.title_index (normalize_title b.title) st.result.length
            else st.title_index } := by
      simp only [dedupStep, hcanon, hurl, htitle, if_neg hb.1, if_neg hb.2]
    rw [List.foldl_cons, hstep]
    have hfaith' : IdxFaithful
        { result := st.result ++ [b],
          canonical_index :=
            match extract_canonical_key b with
            | some k => dput st.canonical_index k st.result.length
            | none => st.canonical_index,
          norm_url_index := dput st.norm_url_index (normalize_url b.url) st.result.length,
          title_index :=
            if isLongTitle (normalize_title b.title) then
              dput st.title_index (normalize_title b.title) st.result.length
            else st.title_index } := by
      refine ⟨?_, ?_, ?_⟩
      · intro k hk
        dsimp only at hk
        cases hkb : extract_canonical_key b with
        | none =>
          rw [hkb] at hk
          obtain ⟨a, ha, hak⟩ := hfaith.1 k hk
          exact ⟨a, List.mem_append_left _ ha, hak⟩
        | some kb =>
          rw [hkb] at hk
          dsimp only at hk
          rw [dget_dput] at hk
          by_cases hkk : k = kb
          · exact ⟨b, List.mem_append_right _ (List.mem_singleton_self b), hkk ▸ hkb⟩
          · rw [if_neg hkk] at hk
            obtain ⟨a, ha, hak⟩ := hfaith.1 k hk
            exact ⟨a, List.mem_append_left _ ha, hak⟩
      · intro u hu'
        dsimp only at hu'
        rw [dget_dput] at hu'
        by_cases huu : u = normalize_url b.url
        · exact ⟨b, List.mem_append_right _ (List.mem_singleton_self b), huu.symm⟩
        · rw [if_neg huu] at hu'
          obtain ⟨a, ha, hau⟩ := hfaith.2.1 u hu'
          exact ⟨a, List.mem_append_left _ ha, hau⟩
      · intro t ht
        dsimp only at ht
        split at ht
        next hlong =>
          rw [dget_dput] at ht
          by_cases htt : t = normalize_title b.title
          · exact ⟨b, List.mem_append_right _ (List.mem_singleton_self b),
              htt.symm, htt ▸ hlong⟩
          · rw [if_neg htt] at ht
            obtain ⟨a, ha, hat⟩ := hfaith.2.2 t ht
            exact ⟨a, List.mem_append_left _ ha, hat⟩
        next =>
          obtain ⟨a, ha, hat⟩ := hfaith.2.2 t ht
          exact ⟨a, List.mem_append_left _ ha, hat⟩
    have hcross' : ∀ a ∈ st.result ++ [b], ∀ c ∈ ys, ¬ judgedDup a c := by
      intro a ha c hc'
      rcases List.mem_append.mp ha with ha | ha
      · exact hcross a ha c (List.mem_cons_of_mem b hc')
      · rw [List.mem_singleton.mp ha]
        exact (List.pairwise_cons.mp hpair).1 c hc'
    have := foldl_result_of_no_dup ys _ hfaith'
      (fun c hc' => hhist c (List.mem_cons_of_mem b hc'))
      hcross' (List.pairwise_cons.mp hpair).2
    rw [this]
    simp

/-- A batch that passes the history filter and contains no two items
judged duplicates of each other is returned unchanged by `deduplicate`. -/
theorem deduplicate_fixed (items : List NewsItem) (history : History)
    (h1 : ∀ b ∈ items, ¬ suppressedBy history b)
    (h2 : items.Pairwise (fun a b => ¬ judgedDup a b)) :
    deduplicate items history = items := by
  simp only [deduplicate]
  have init : IdxFaithful ⟨[], [], [], []⟩ := by
    refine ⟨?_, ?_, ?_⟩ <;> intro k hk <;> simp [dget, List.lookup] at hk
  rw [foldl_result_of_no_dup items _ init ?_ (by intro a ha; simp at ha) h2]
  · simp
  · intro b hb
    have := h1 b hb
    simp only [suppressedBy] at this
    push_neg at this
    exact ⟨fun h => h.elim this.1 this.2.1, this.2.2⟩

/-- C2 counterexample: `deduplicate` is not idempotent.  With history
empty and the batch below, the first pass replaces the hackernews item by
the later blog item (normalized-URL layer), copying the blog item's long
title into position 0 while the reddit item with the very same title sits
at position 1; the second pass then merges the two remaining items via
the title layer. -/
theorem deduplicate_not_idempotent :
    deduplicate
      (deduplicate
        [⟨"zzz", "https://a.com/x/", "hackernews", "", ""⟩,
         ⟨"hello world this is long", "https://b.com/y", "reddit", "", ""⟩,
         ⟨"hello world this is long", "https://a.com/x", "blog", "", ""⟩]
        ⟨[], []⟩)
      ⟨[], []⟩ ≠
    deduplicate
      [⟨"zzz", "https://a.com/x/", "hackernews", "", ""⟩,
       ⟨"hello world this is long", "https://b.com/y", "reddit", "", ""⟩,
       ⟨"hello world this is long", "https://a.com/x", "blog", "", ""⟩]
      ⟨[], []⟩ := by
  decide

/-- C2 (amended): `deduplicate(deduplicate(X, H), H) = deduplicate(X, H)`
holds whenever the first pass leaves no residual duplicate pair in its
output — in particular whenever no in-place replacement re-introduced a
key collision.  (Unconditional idempotence fails:
`deduplicate_not_idempotent`.) -/
theorem deduplicate_idempotent_of_no_residual_dup (items : List NewsItem)
    (history : History)
    (h : (deduplicate items history).Pairwise (fun a b => ¬ judgedDup a b)) :
    deduplicate (deduplicate items history) history = deduplicate items history :=
  deduplicate_fixed _ _ (fun b hb => (mem_deduplicate hb).2) h

/-- Witness for the amended C2 at a concrete batch and history. -/
theorem deduplicate_idempotent_of_no_residual_dup_witness :
    deduplicate
      (deduplicate
        [⟨"Item one title", "https://a.com/x", "blog", "", ""⟩,
         ⟨"Item two title", "https://b.com/y", "reddit", "", ""⟩]
        ⟨["https://c.com/z"], []⟩)
      ⟨["https://c.com/z"], []⟩ =
    deduplicate
      [⟨"Item one title", "https://a.com/x", "blog", "", ""⟩,
       ⟨"Item two title", "https://b.com/y", "reddit", "", ""⟩]
      ⟨["https://c.com/z"], []⟩ :=
  deduplicate_idempotent_of_no_residual_dup _ _ (by decide)

/-! ## Claims C1 and C7: two-item batches -/

theorem dget_nil (k : String) : dget [] k = none := rfl

/-- Processing a first, unsuppressed item from the empty state appends it
and registers its keys. -/
theorem dedupStep_init {hu nhu hc : List String} {A : NewsItem}
    (hA1 : ¬(A.url ∈ hu ∨ normalize_url A.url ∈ nhu))
    (hA2 : ¬ canonInHistory (extract_canonical_key A) hc) :
    dedupStep hu nhu hc ⟨[], [], [], []⟩ A =
      { result := [A],
        canonical_index :=
          match extract_canonical_key A with
          | some k => dput [] k 0
          | none => [],
        norm_url_index := dput [] (normalize_url A.url) 0,
        title_index :=
          if isLongTitle (normalize_title A.title) then
            dput [] (normalize_title A.title) 0
          else [] } := by
  simp only [dedupStep, if_neg hA1, if_neg hA2]
  cases hk : extract_canonical_key A <;>
    simp [dget, List.lookup] <;> split <;> rfl

theorem judgedDup_symm {a b : NewsItem} (h : judgedDup a b) : judgedDup b a := by
  rcases h with ⟨k, h1, h2⟩ | h | ⟨h1, h2⟩
  · exact Or.inl ⟨k, h2, h1⟩
  · exact Or.inr (Or.inl h.symm)
  · exact Or.inr (Or.inr ⟨h1.symm, h1 ▸ h2⟩)

theorem not_suppressed_parts {H : History} {A : NewsItem}
    (hA : ¬ suppressedBy H A) :
    ¬(A.url ∈ H.urls ∨ normalize_url A.url ∈ H.urls.map normalize_url) ∧
      ¬ canonInHistory (extract_canonical_key A) H.canonical_keys := by
  simp only [suppressedBy] at hA
  push_neg at hA
  exact ⟨fun h => h.elim hA.1 hA.2.1, hA.2.2⟩

/-- A two-item batch of judged duplicates yields the single preferred
item, whichever order the engine decides it in. -/
theorem deduplicate_pair_dup (A B : NewsItem) (H : History)
    (hA : ¬ suppressedBy H A) (hB : ¬ suppressedBy H B)
    (hdup : judgedDup A B) :
    deduplicate [A, B] H = [_pick_preferred A B] := by
  obtain ⟨hA1, hA2⟩ := not_suppressed_parts hA
  obtain ⟨hB1, hB2⟩ := not_suppressed_parts hB
  simp only [deduplicate, List.foldl_cons, List.foldl_nil]
  rw [dedupStep_init hA1 hA2]
  simp only [dedupStep, if_neg hB1, if_neg hB2]
  by_cases hc1 : ∃ k, extract_canonical_key A = some k ∧ extract_canonical_key B = some k
  · -- canonical layer match
    obtain ⟨k, hkA, hkB⟩ := hc1
    rw [hkA, hkB]
    have hbind : ((some k).bind fun a => dget (dput [] k 0) a) = some 0 := by
      show dget (dput [] k 0) k = some 0
      rw [dget_dput, if_pos rfl]
    rw [hbind]
    dsimp only [List.getD_cons_zero]
    split
    next hlt => simp [_pick_preferred, hlt]
    next hlt => simp [_pick_preferred, hlt]
  · -- canonical layer finds nothing
    have hnone : (extract_canonical_key B).bind
        (dget (match extract_canonical_key A with
               | some k => dput [] k 0
               | none => [])) = none := by
      cases hkB : extract_canonical_key B with
      | none => rfl
      | some kB =>
        cases hkA : extract_canonical_key A with
        | none => exact dget_nil kB
        | some kA =>
          show dget (dput [] kA 0) kB = none
          rw [dget_dput]
          rw [if_neg (fun h : kB = kA => hc1 ⟨kA, hkA, h ▸ hkB⟩)]
          rfl
    rw [hnone]
    dsimp only
    by_cases hu2 : normalize_url B.url = normalize_url A.url
    · -- URL layer match
      rw [dget_dput, if_pos hu2]
      dsimp only [List.getD_cons_zero]
      split
      next hlt => simp [_pick_preferred, hlt]
      next hlt => simp [_pick_preferred, hlt]
    · -- URL layer finds nothing
      rw [dget_dput, if_neg hu2, dget_nil]
      dsimp only
      -- only the title clause of `judgedDup` can remain
      rcases hdup with hc | hu | ⟨heq, hlong⟩
      · exact absurd hc hc1
      · exact absurd hu.symm hu2
      · rw [if_pos hlong, if_pos (heq ▸ hlong), dget_dput, if_pos heq.symm]
        dsimp only [List.getD_cons_zero]
        split
        next hlt => simp [_pick_preferred, hlt]
        next hlt => simp [_pick_preferred, hlt]

/-- C1: for two items judged duplicates of each other with strictly
different source priorities, `deduplicate [A, B]` and `deduplicate [B, A]`
(under a history suппressing neither) both yield exactly the item with the
lower (better) source priority — arrival order does not matter. -/
theorem dedup_pair_order_independent (A B : NewsItem) (H : History)
    (hA : ¬ suppressedBy H A) (hB : ¬ suppressedBy H B)
    (hdup : judgedDup A B)
    (hpri : sourcePriority A.source ≠ sourcePriority B.source) :
    deduplicate [A, B] H =
      [if sourcePriority A.source < sourcePriority B.source then A else B] ∧
    deduplicate [B, A] H =
      [if sourcePriority A.source < sourcePriority B.source then A else B] := by
  have h1 := deduplicate_pair_dup A B H hA hB hdup
  have h2 := deduplicate_pair_dup B A H hB hA (judgedDup_symm hdup)
  rw [h1, h2]
  unfold _pick_preferred
  rcases Nat.lt_or_ge (sourcePriority A.source) (sourcePriority B.source) with h | h
  · rw [if_neg (Nat.not_lt_of_lt h), if_pos h]
    exact ⟨rfl, rfl⟩
  · have hlt : sourcePriority B.source < sourcePriority A.source :=
      Nat.lt_of_le_of_ne h (fun he => hpri he.symm)
    rw [if_pos hlt, if_neg (Nat.not_lt_of_lt hlt)]
    exact ⟨rfl, rfl⟩

/-- Witness for C1: the hf_papers/arxiv pair of the spec in both orders. -/
theorem dedup_pair_order_independent_witness :
    deduplicate
      [⟨"Paper X", "https://huggingface.co/papers/2602.06570", "hf_papers", "", ""⟩,
       ⟨"Paper X", "http://arxiv.org/abs/2602.06570v1", "arxiv", "", ""⟩] ⟨[], []⟩ =
      [if sourcePriority "hf_papers" <
          sourcePriority "arxiv" then
          ⟨"Paper X", "https://huggingface.co/papers/2602.06570", "hf_papers", "", ""⟩
        else ⟨"Paper X", "http://arxiv.org/abs/2602.06570v1", "arxiv", "", ""⟩] ∧
    deduplicate
      [⟨"Paper X", "http://arxiv.org/abs/2602.06570v1", "arxiv", "", ""⟩,
       ⟨"Paper X", "https://huggingface.co/papers/2602.06570", "hf_papers", "", ""⟩] ⟨[], []⟩ =
      [if sourcePriority "hf_papers" <
          sourcePriority "arxiv" then
          ⟨"Paper X", "https://huggingface.co/papers/2602.06570", "hf_papers", "", ""⟩
        else ⟨"Paper X", "http://arxiv.org/abs/2602.06570v1", "arxiv", "", ""⟩] :=
  dedup_pair_order_independent _ _ ⟨[], []⟩ (by decide) (by decide)
    (Or.inl ⟨"arxiv:2602.06570", by decide, by decide⟩) (by decide)

/-- C7: two items with an identical title that normalizes to fewer than 15
characters, distinct normalized URLs and no shared canonical key are both
kept — the title layer never merges them. -/
theorem short_title_items_both_survive (A B : NewsItem) (H : History)
    (hA : ¬ suppressedBy H A) (hB : ¬ suppressedBy H B)
    (htitle : A.title = B.title)
    (hshort : (normalize_title A.title).length < _MIN_TITLE_LENGTH)
    (hurl : normalize_url A.url ≠ normalize_url B.url)
    (hcanon : ¬ ∃ k, extract_canonical_key A = some k ∧
      extract_canonical_key B = some k) :
    deduplicate [A, B] H = [A, B] := by
  refine deduplicate_fixed _ _ ?_ ?_
  · intro b hb
    rcases List.mem_cons.mp hb with rfl | hb2
    · exact hA
    · rw [List.mem_singleton.mp hb2]; exact hB
  · refine List.pairwise_cons.mpr ⟨?_, List.pairwise_singleton _ _⟩
    intro b hb
    rw [List.mem_singleton.mp hb]
    rintro (hc | hu | ⟨heq, hlong⟩)
    · exact hcanon hc
    · exact hurl hu
    · rw [htitle] at hshort
      exact absurd hlong.2 (Nat.not_le_of_lt hshort)

/-- Witness for C7: the two unrelated "GPT-5" items of the spec. -/
theorem short_title_items_both_survive_witness :
    deduplicate
      [⟨"GPT-5", "https://a.com/1", "blog", "", ""⟩,
       ⟨"GPT-5", "https://b.com/2", "hackernews", "", ""⟩] ⟨[], []⟩ =
      [⟨"GPT-5", "https://a.com/1", "blog", "", ""⟩,
       ⟨"GPT-5", "https://b.com/2", "hackernews", "", ""⟩] :=
  short_title_items_both_survive _ _ _ (by decide) (by decide) rfl
    (by decide) (by decide) (by decide)

/-! ## Claim C8 -/

theorem trimData_eq_nil_of_all_ws {cs : List Char}
    (h : ∀ c ∈ cs, c.isWhitespace) : trimData cs = [] := by
  unfold trimData
  rw [List.dropWhile_eq_nil_iff.mpr h]
  rfl

/-- C8 counterexample: on the whitespace-only input " ", `normalize_url`
returns the stripped string "" — not the input itself. -/
theorem normalize_url_ws_input_changed : normalize_url " " ≠ " " := by decide

/-- C8 (amended): on an empty or whitespace-only input, `normalize_url`
returns the stripped input — that is, the empty string — without raising;
in particular the empty input is returned unchanged. -/
theorem normalize_url_ws_input (s : String) (h : ∀ c ∈ s.data, c.isWhitespace) :
    normalize_url s = "" := by
  simp only [normalize_url, normalizeUrlData, trimData_eq_nil_of_all_ws h]
  rfl

/-- Witness for the amended C8 at the inputs "" and "  ". -/
theorem normalize_url_ws_input_witness :
    normalize_url "" = "" ∧ normalize_url "  " = "" :=
  ⟨normalize_url_ws_input "" (by decide), normalize_url_ws_input "  " (by decide)⟩

/-! ## Claim C9 -/

theorem lexLe_trans : ∀ (a b c : List Char),
    lexLe a b = true → lexLe b c = true → lexLe a c = true
  | [], _, _, _, _ => rfl
  | _ :: _, [], _, h1, _ => by simp [lexLe] at h1
  | _ :: _, _ :: _, [], _, h2 => by simp [lexLe] at h2
  | x :: as, y :: bs, z :: cs, h1, h2 => by
    simp only [lexLe] at h1 h2 ⊢
    by_cases hxy : x.toNat < y.toNat <;> by_cases hyz : y.toNat < z.toNat
    · rw [if_pos (Nat.lt_trans hxy hyz)]
    · rw [if_neg hyz] at h2
      by_cases hzy : z.toNat < y.toNat
      · rw [if_pos hzy] at h2; exact absurd h2 (by simp)
      · rw [if_pos (show x.toNat < z.toNat by omega)]
    · rw [if_neg hxy] at h1
      by_cases hyx : y.toNat < x.toNat
      · rw [if_pos hyx] at h1; exact absurd h1 (by simp)
      · rw [if_pos (show x.toNat < z.toNat by omega)]
    · rw [if_neg hxy] at h1
      rw [if_neg hyz] at h2
      by_cases hyx : y.toNat < x.toNat
      · rw [if_pos hyx] at h1; exact absurd h1 (by simp)
      · by_cases hzy : z.toNat < y.toNat
        · rw [if_pos hzy] at h2; exact absurd h2 (by simp)
        · rw [if_neg hyx] at h1
          rw [if_neg hzy] at h2
          rw [if_neg (show ¬ x.toNat < z.toNat by omega),
            if_neg (show ¬ z.toNat < x.toNat by omega)]
          exact lexLe_trans as bs cs h1 h2

theorem lexLe_total : ∀ (a b : List Char), lexLe a b = true ∨ lexLe b a = true
  | [], _ => Or.inl rfl
  | _ :: _, [] => Or.inr rfl
  | x :: as, y :: bs => by
    simp only [lexLe]
    rcases Nat.lt_trichotomy x.toNat y.toNat with h | h | h
    · left; rw [if_pos h]
    · have h1 : ¬ x.toNat < y.toNat := by omega
      have h2 : ¬ y.toNat < x.toNat := by omega
      rw [if_neg h1, if_neg h2, if_neg h2, if_neg h1]
      exact lexLe_total as bs
    · right; rw [if_pos h]

theorem strLeRel_trans {a b c : String} (h1 : strLeRel a b) (h2 : strLeRel b c) :
    strLeRel a c :=
  lexLe_trans a.data b.data c.data h1 h2

theorem strLeRel_total (a b : String) : strLeRel a b ∨ strLeRel b a :=
  lexLe_total a.data b.data

theorem sortedSet_perm (l : List String) : (sortedSet l).Perm l.dedup :=
  List.perm_insertionSort strLeRel l.dedup

theorem sortedSet_pairwise (l : List String) :
    (sortedSet l).Pairwise strLeRel := by
  letI : IsTotal String strLeRel := ⟨strLeRel_total⟩
  letI : IsTrans String strLeRel := ⟨fun _ _ _ => strLeRel_trans⟩
  exact List.sorted_insertionSort strLeRel l.dedup

theorem mem_truncate_sortedSet {cap : Nat} {l : List String} {x : String}
    (hx : x ∈ truncateTail cap (sortedSet l)) : x ∈ l := by
  unfold truncateTail at hx
  split at hx
  · exact List.mem_dedup.mp ((sortedSet_perm l).mem_iff.mp (List.mem_of_mem_drop hx))
  · exact List.mem_dedup.mp ((sortedSet_perm l).mem_iff.mp hx)

theorem truncate_sortedSet_length (cap : Nat) (l : List String) :
    (truncateTail cap (sortedSet l)).length = min cap l.dedup.length := by
  have hlen : (sortedSet l).length = l.dedup.length := (sortedSet_perm l).length_eq
  unfold truncateTail
  split
  next hcap =>
    rw [List.length_drop, hlen]
    rw [hlen] at hcap
    omega
  next hcap =>
    rw [hlen]
    rw [hlen] at hcap
    omega

theorem truncate_sortedSet_upclosed {cap : Nat} {l : List String} {x y : String}
    (hx : x ∈ truncateTail cap (sortedSet l)) (hy : y ∈ l)
    (hgt : strLe y x = false) : y ∈ truncateTail cap (sortedSet l) := by
  have hys : y ∈ sortedSet l := (sortedSet_perm l).mem_iff.mpr (List.mem_dedup.mpr hy)
  unfold truncateTail at hx ⊢
  by_cases hcap : cap < (sortedSet l).length
  · rw [if_pos hcap] at hx ⊢
    have hpw := sortedSet_pairwise l
    rw [← List.take_append_drop ((sortedSet l).length - cap) (sortedSet l)] at hpw hys
    rcases List.mem_append.mp hys with hyt | hyd
    · exfalso
      have hle : strLeRel y x := (List.pairwise_append.mp hpw).2.2 y hyt x hx
      rw [strLeRel] at hle
      rw [hle] at hgt
      exact Bool.noConfusion hgt
    · exact hyd
  · rw [if_neg hcap]
    exact hys

/-- C9: after any save, the persisted `urls` hold at most 10,000 entries
and the persisted `canonical_keys` at most 5,000, and each collection is
exactly the lexicographically-greatest distinct entries of its set: every
kept entry belongs to the set, the kept size is the set size clipped at
the cap, and every set entry lexicographically greater than some kept
entry is itself kept. -/
theorem save_history_cap_enforcement (h : History) :
    (save_history h).urls.length ≤ 10000 ∧
    (save_history h).canonical_keys.length ≤ 5000 ∧
    (save_history h).urls.length = min 10000 h.urls.dedup.length ∧
    (save_history h).canonical_keys.length = min 5000 h.canonical_keys.dedup.length ∧
    (∀ x ∈ (save_history h).urls, x ∈ h.urls) ∧
    (∀ x ∈ (save_history h).canonical_keys, x ∈ h.canonical_keys) ∧
    (∀ x ∈ (save_history h).urls, ∀ y ∈ h.urls, strLe y x = false →
      y ∈ (save_history h).urls) ∧
    (∀ x ∈ (save_history h).canonical_keys, ∀ y ∈ h.canonical_keys,
      strLe y x = false → y ∈ (save_history h).canonical_keys) := by
  refine ⟨?_, ?_, ?_, ?_, ?_, ?_, ?_, ?_⟩
  · rw [show (save_history h).urls = truncateTail 10000 (sortedSet h.urls) from rfl,
      truncate_sortedSet_length]
    omega
  · rw [show (save_history h).canonical_keys =
        truncateTail 5000 (sortedSet h.canonical_keys) from rfl,
      truncate_sortedSet_length]
    omega
  · exact truncate_sortedSet_length 10000 h.urls
  · exact truncate_sortedSet_length 5000 h.canonical_keys
  · exact fun x hx => mem_truncate_sortedSet hx
  · exact fun x hx => mem_truncate_sortedSet hx
  · exact fun x hx y hy hgt => truncate_sortedSet_upclosed hx hy hgt
  · exact fun x hx y hy hgt => truncate_sortedSet_upclosed hx hy hgt

/-- Witness for C9 at a concrete history: "a" is kept, "b" is in the set
and greater, so "b" is kept as well. -/
theorem save_history_cap_enforcement_witness :
    "b" ∈ (save_history ⟨["b", "a"], ["k"]⟩).urls :=
  (save_history_cap_enforcement ⟨["b", "a"], ["k"]⟩).2.2.2.2.2.2.1
    "a" (by decide) "b" (by decide) (by decide)

/-! ## Claim C10 -/

theorem renderUrl_ne_nil (netloc path query : List Char) :
    renderUrl netloc path query ≠ [] := by
  simp only [renderUrl]
  split <;> intro h
  · exact absurd (List.append_eq_nil.mp (List.append_eq_nil.mp h).1).1 (by decide)
  · exact absurd (List.append_eq_nil.mp h).1 (by decide)

theorem normalizeUrlData_eq_nil_iff (cs : List Char) :
    normalizeUrlData cs = [] ↔ trimData cs = [] := by
  simp only [normalizeUrlData]
  split
  next h => exact ⟨fun _ => h, fun _ => h⟩
  next h => exact ⟨fun hr => absurd hr (renderUrl_ne_nil _ _ _), fun ht => absurd ht h⟩

theorem normalize_url_eq_empty_iff (u : String) :
    normalize_url u = "" ↔ trimData u.data = [] := by
  rw [← normalizeUrlData_eq_nil_iff]
  constructor
  · intro h
    exact congrArg String.data h
  · intro h
    unfold normalize_url
    rw [h]

theorem all_ws_of_trimData_nil {cs : List Char} (h : trimData cs = []) :
    ∀ c ∈ cs, c.isWhitespace := by
  unfold trimData at h
  rw [List.reverse_eq_nil_iff] at h
  have h3 : ∀ c ∈ cs.dropWhile Char.isWhitespace, c.isWhitespace := by
    intro c hc
    exact List.dropWhile_eq_nil_iff.mp h c (List.mem_reverse.mpr hc)
  intro c hc
  rw [← @List.takeWhile_append_dropWhile _ Char.isWhitespace cs] at hc
  rcases List.mem_append.mp hc with h4 | h4
  · exact List.mem_takeWhile_imp h4
  · exact h3 c h4

theorem ws_char_facts {c : Char} (h : c.isWhitespace) : c ≠ 'a' ∧ c ≠ 'h' := by
  have h' : ((c = ' ' ∨ c = '\t') ∨ c = '\x0d') ∨ c = '\n' := by
    simpa [Char.isWhitespace] using h
  rcases h' with ((rfl | rfl) | rfl) | rfl <;> exact ⟨by decide, by decide⟩

theorem searchArxiv_eq_none_of_no_head (l0 : Char) (ls : List Char) :
    ∀ (cs : List Char), (∀ c ∈ cs, c ≠ l0) → searchArxiv (l0 :: ls) cs = none
  | [], _ => rfl
  | c :: rest, h => by
    unfold searchArxiv
    rw [show litMatch (l0 :: ls) (c :: rest) = none from by
      unfold litMatch
      rw [if_neg (h c (List.mem_cons_self c rest))]]
    exact searchArxiv_eq_none_of_no_head l0 ls rest
      (fun c' hc' => h c' (List.mem_cons_of_mem c hc'))

theorem extract_canonical_key_of_ws {it : NewsItem}
    (h : trimData it.url.data = []) : extract_canonical_key it = none := by
  have hws := all_ws_of_trimData_nil h
  have hA : searchArxiv ("arxiv.org/abs/".data) it.url.data = none := by
    rw [show "arxiv.org/abs/".data = 'a' :: "rxiv.org/abs/".data from by decide]
    exact searchArxiv_eq_none_of_no_head _ _ _
      (fun c hc => (ws_char_facts (hws c hc)).1)
  have hP : searchArxiv ("arxiv.org/pdf/".data) it.url.data = none := by
    rw [show "arxiv.org/pdf/".data = 'a' :: "rxiv.org/pdf/".data from by decide]
    exact searchArxiv_eq_none_of_no_head _ _ _
      (fun c hc => (ws_char_facts (hws c hc)).1)
  have hH : searchArxiv ("huggingface.co/papers/".data) it.url.data = none := by
    rw [show "huggingface.co/papers/".data =
      'h' :: "uggingface.co/papers/".data from by decide]
    exact searchArxiv_eq_none_of_no_head _ _ _
      (fun c hc => (ws_char_facts (hws c hc)).2)
  simp [extract_canonical_key, _ARXIV_ID_PATTERNS, List.findSome?_cons, hA, hP, hH]

/-- One step of `deduplicate` preserves the whitespace-URL invariant. -/
theorem wsInv_dedupStep {hu nhu hc : List String} {st : DedupState} {item : NewsItem}
    (hinv : WsInv st) : WsInv (dedupStep hu nhu hc st item) := by
  simp only [dedupStep]
  split
  · exact hinv
  split
  · exact hinv
  split
  next idx heq =>
    -- Layer 1: the item has a canonical key, hence a non-empty stripped URL
    have hitem : ¬ trimData item.url.data = [] := by
      intro hws
      rw [extract_canonical_key_of_ws hws] at heq
      exact Option.noConfusion heq
    have hne : ¬ ("" : String) = normalize_url item.url := by
      intro hx
      exact hitem ((normalize_url_eq_empty_iff item.url).mp hx.symm)
    split
    next hlt =>
      intro i hi hwsi
      have hi' : i < st.result.length := by simpa using hi
      rw [List.get_eq_getElem, List.getElem_set] at hwsi
      dsimp only at hwsi
      dsimp only
      rw [dget_dput, if_neg hne]
      split at hwsi
      next =>
        exact absurd hwsi (by rw [_pick_preferred_eq_incoming hlt]; exact hitem)
      next hii =>
        exact hinv i hi' (by rw [List.get_eq_getElem]; exact hwsi)
    next => exact hinv
  next hc1 =>
  split
  next idx heq =>
    -- Layer 2: the normalized-URL index is left unchanged by the update
    split
    next hlt =>
      intro i hi hwsi
      have hi' : i < st.result.length := by simpa using hi
      rw [List.get_eq_getElem, List.getElem_set] at hwsi
      dsimp only at hwsi
      dsimp only
      split at hwsi
      next hii =>
        subst hii
        have hws_item : trimData item.url.data = [] := by
          rw [_pick_preferred_eq_incoming hlt] at hwsi
          exact hwsi
        have hnet : normalize_url item.url = "" :=
          (normalize_url_eq_empty_iff _).mpr hws_item
        rw [hnet] at heq
        exact heq
      next hii =>
        exact hinv i hi' (by rw [List.get_eq_getElem]; exact hwsi)
    next => exact hinv
  next h2none =>
  split
  next idx heq =>
    -- Layer 3: the incoming item's normalized URL is re-registered at idx
    split
    next hlt =>
      intro i hi hwsi
      have hi' : i < st.result.length := by simpa using hi
      rw [List.get_eq_getElem, List.getElem_set] at hwsi
      dsimp only at hwsi
      dsimp only
      split at hwsi
      next hii =>
        subst hii
        have hws_item : trimData item.url.data = [] := by
          rw [_pick_preferred_eq_incoming hlt] at hwsi
          exact hwsi
        have hnet : normalize_url item.url = "" :=
          (normalize_url_eq_empty_iff _).mpr hws_item
        rw [dget_dput, if_pos hnet.symm]
      next hii =>
        have hold := hinv i hi' (by rw [List.get_eq_getElem]; exact hwsi)
        rw [dget_dput]
        by_cases hws_item : trimData item.url.data = []
        · exfalso
          have hnet : normalize_url item.url = "" :=
            (normalize_url_eq_empty_iff _).mpr hws_item
          rw [hnet] at h2none
          rw [h2none] at hold
          exact Option.noConfusion hold
        · have hne : ¬ ("" : String) = normalize_url item.url := by
            intro hx
            exact hws_item ((normalize_url_eq_empty_iff item.url).mp hx.symm)
          rw [if_neg hne]
          exact hold
    next => exact hinv
  next h3none =>
    -- append
    intro i hi hwsi
    dsimp only at hi hwsi ⊢
    rw [List.get_eq_getElem, List.getElem_append] at hwsi
    dsimp only at hwsi
    by_cases hii : i < st.result.length
    · rw [dif_pos hii] at hwsi
      have hold := hinv i hii (by rw [List.get_eq_getElem]; exact hwsi)
      rw [dget_dput]
      by_cases hws_item : trimData item.url.data = []
      · exfalso
        have hnet : normalize_url item.url = "" :=
          (normalize_url_eq_empty_iff _).mpr hws_item
        rw [hnet] at h2none
        rw [h2none] at hold
        exact Option.noConfusion hold
      · have hne : ¬ ("" : String) = normalize_url item.url := by
          intro hx
          exact hws_item ((normalize_url_eq_empty_iff item.url).mp hx.symm)
        rw [if_neg hne]
        exact hold
    · rw [dif_neg hii] at hwsi
      have hieq : i = st.result.length := by
        simp only [List.length_append, List.length_cons, List.length_nil] at hi
        omega
      subst hieq
      have hws_item : trimData item.url.data = [] := by
        simpa using hwsi
      have hnet : normalize_url item.url = "" :=
        (normalize_url_eq_empty_iff _).mpr hws_item
      rw [dget_dput, if_pos hnet.symm]

theorem wsInv_foldl {hu nhu hc : List String} :
    ∀ (items : List NewsItem) (st : DedupState),
      WsInv st → WsInv (items.foldl (dedupStep hu nhu hc) st)
  | [], _, h => h
  | _ :: items, _, h => wsInv_foldl items _ (wsInv_dedupStep h)

theorem countP_le_one_of_unique_pos {α : Type} (p : α → Bool) :
    ∀ (l : List α),
      (∀ i j (hi : i < l.length) (hj : j < l.length),
        p (l.get ⟨i, hi⟩) → p (l.get ⟨j, hj⟩) → i = j) →
      l.countP p ≤ 1
  | [], _ => by simp
  | x :: xs, h => by
    rw [List.countP_cons]
    by_cases hx : p x
    · have hz : xs.countP p = 0 := by
        rw [List.countP_eq_zero]
        intro a ha hpa
        obtain ⟨j, hj, hja⟩ := List.getElem_of_mem ha
        have h0 := h 0 (j + 1) (Nat.succ_pos _) (Nat.succ_lt_succ hj)
          (by simpa using hx) (by simpa [hja] using hpa)
        exact Nat.noConfusion h0
      simp [hz, hx]
    · rw [if_neg hx, Nat.add_zero]
      exact countP_le_one_of_unique_pos p xs
        (fun i j hi hj hpi hpj => by
          have := h (i + 1) (j + 1) (Nat.succ_lt_succ hi) (Nat.succ_lt_succ hj)
            (by simpa using hpi) (by simpa using hpj)
          omega)

/-- C10: at most one output item of `deduplicate` has an empty or
whitespace-only `url`.  Such an item yields no canonical key and its URL
normalizes to the empty string, so once one of them has registered the
empty normalized URL, every later one is judged a duplicate of it at the
normalized-URL layer and silently merges with it. -/
theorem dedup_at_most_one_ws_url (items : List NewsItem) (history : History) :
    (deduplicate items history).countP
      (fun it => trimData it.url.data == []) ≤ 1 := by
  simp only [deduplicate]
  have hinv := @wsInv_foldl history.urls (history.urls.map normalize_url)
    history.canonical_keys items ⟨[], [], [], []⟩
    (fun i hi => absurd hi (Nat.not_lt_zero i))
  apply countP_le_one_of_unique_pos
  intro i j hi hj hpi hpj
  have h1 := hinv i hi (by simpa using hpi)
  have h2 := hinv j hj (by simpa using hpj)
  rw [h1] at h2
  exact Option.some.inj h2

/-! ## Claim C5 -/

theorem litMatch_append : ∀ (lit rest : List Char), litMatch lit (lit ++ rest) = some rest
  | [], _ => rfl
  | l :: ls, rest => by
    show litMatch (l :: ls) (l :: (ls ++ rest)) = some rest
    unfold litMatch
    rw [if_pos rfl]
    exact litMatch_append ls rest

/-- A decidable certificate that the literal can never match at the head
of `pre ++ rest`, whatever `rest` is: the literal disagrees with `pre`
before either list runs out. -/
def litConflict : List Char → List Char → Bool
  | l :: ls, p :: ps => if l = p then litConflict ls ps else true
  | _, _ => false

theorem litMatch_none_of_conflict : ∀ (lit pre rest : List Char),
    litConflict lit pre = true → litMatch lit (pre ++ rest) = none
  | [], p, _, h => by simp [litConflict] at h
  | _ :: _, [], _, h => by simp [litConflict] at h
  | l :: ls, p :: ps, rest, h => by
    unfold litConflict at h
    show litMatch (l :: ls) (p :: (ps ++ rest)) = none
    unfold litMatch
    by_cases hlp : l = p
    · rw [if_pos hlp] at h
      rw [if_pos hlp.symm]
      exact litMatch_none_of_conflict ls ps rest h
    · rw [if_neg (fun hx : p = l => hlp hx.symm)]

theorem searchArxiv_cons (lit : List Char) (c : Char) (rest : List Char) :
    searchArxiv lit (c :: rest) =
      match litMatch lit (c :: rest) with
      | some after =>
        match arxivIdAt after with
        | some id => some id
        | none => searchArxiv lit rest
      | none => searchArxiv lit rest := rfl

/-- The leftmost search skips a prefix on which the literal conflicts at
every start position. -/
theorem searchArxiv_skip (lit : List Char) : ∀ (pre rest : List Char),
    (∀ i, i < pre.length → litConflict lit (pre.drop i) = true) →
    searchArxiv lit (pre ++ rest) = searchArxiv lit rest
  | [], _, _ => rfl
  | c :: pre', rest, h => by
    have hfail := litMatch_none_of_conflict lit (c :: pre') rest (h 0 (Nat.succ_pos _))
    rw [List.cons_append] at hfail ⊢
    rw [searchArxiv_cons, hfail]
    exact searchArxiv_skip lit pre' rest (fun i hi => h (i + 1) (Nat.succ_lt_succ hi))

/-- The search succeeds where the literal itself starts and the id group
follows. -/
theorem searchArxiv_here (l0 : Char) (ls tail id : List Char)
    (hmatch : arxivIdAt tail = some id) :
    searchArxiv (l0 :: ls) ((l0 :: ls) ++ tail) = some id := by
  have hlit := litMatch_append (l0 :: ls) tail
  rw [List.cons_append] at hlit ⊢
  rw [searchArxiv_cons, hlit]
  dsimp only
  rw [hmatch]

theorem arxivIdAt_shape4 (a b c d e1 e2 e3 e4 : Char) (s : List Char)
    (hd : a.isDigit = true ∧ b.isDigit = true ∧ c.isDigit = true ∧ d.isDigit = true)
    (he : e1.isDigit = true ∧ e2.isDigit = true ∧ e3.isDigit = true ∧ e4.isDigit = true)
    (hs : ∀ c0 ∈ s.take 1, c0.isDigit = false) :
    arxivIdAt (a :: b :: c :: d :: '.' :: e1 :: e2 :: e3 :: e4 :: s) =
      some [a, b, c, d, '.', e1, e2, e3, e4] := by
  rcases s with _ | ⟨c0, s'⟩
  · simp [arxivIdAt, hd.1, hd.2.1, hd.2.2.1, hd.2.2.2, he.1, he.2.1, he.2.2.1, he.2.2.2]
  · have hc0 : c0.isDigit = false := hs c0 (by simp)
    simp [arxivIdAt, hd.1, hd.2.1, hd.2.2.1, hd.2.2.2, he.1, he.2.1, he.2.2.1,
      he.2.2.2, hc0]

theorem arxivIdAt_shape5 (a b c d e1 e2 e3 e4 e5 : Char) (s : List Char)
    (hd : a.isDigit = true ∧ b.isDigit = true ∧ c.isDigit = true ∧ d.isDigit = true)
    (he : e1.isDigit = true ∧ e2.isDigit = true ∧ e3.isDigit = true ∧
      e4.isDigit = true ∧ e5.isDigit = true) :
    arxivIdAt (a :: b :: c :: d :: '.' :: e1 :: e2 :: e3 :: e4 :: e5 :: s) =
      some [a, b, c, d, '.', e1, e2, e3, e4, e5] := by
  simp [arxivIdAt, hd.1, hd.2.1, hd.2.2.1, hd.2.2.2, he.1, he.2.1, he.2.2.1,
    he.2.2.2.1, he.2.2.2.2]

/-- The id group `(\d{4}\.\d{4,5})` matches at the head of
`d1 ++ "." ++ d2 ++ s` and captures exactly `d1 ++ "." ++ d2`, for digit
blocks of the recognized widths and a suffix that does not start with a
digit. -/
theorem arxivIdAt_id (d1 d2 s : List Char)
    (h1 : d1.length = 4) (hd1 : ∀ c ∈ d1, c.isDigit = true)
    (h2 : d2.length = 4 ∨ d2.length = 5) (hd2 : ∀ c ∈ d2, c.isDigit = true)
    (hs : ∀ c0 ∈ s.take 1, c0.isDigit = false) :
    arxivIdAt (d1 ++ '.' :: (d2 ++ s)) = some (d1 ++ '.' :: d2) := by
  obtain ⟨a, b, c, d, rfl⟩ : ∃ a b c d, d1 = [a, b, c, d] := by
    rcases d1 with _ | ⟨a, d1⟩
    · simp at h1
    rcases d1 with _ | ⟨b, d1⟩
    · simp at h1
    rcases d1 with _ | ⟨c, d1⟩
    · simp at h1
    rcases d1 with _ | ⟨d, d1⟩
    · simp at h1
    rcases d1 with _ | ⟨x, d1⟩
    · exact ⟨a, b, c, d, rfl⟩
    · simp at h1
  have ha := hd1 a (by simp)
  have hb := hd1 b (by simp)
  have hcc := hd1 c (by simp)
  have hdd := hd1 d (by simp)
  rcases h2 with h2 | h2
  · obtain ⟨e1, e2, e3, e4, rfl⟩ : ∃ e1 e2 e3 e4, d2 = [e1, e2, e3, e4] := by
      rcases d2 with _ | ⟨e1, d2⟩
      · simp at h2
      rcases d2 with _ | ⟨e2, d2⟩
      · simp at h2
      rcases d2 with _ | ⟨e3, d2⟩
      · simp at h2
      rcases d2 with _ | ⟨e4, d2⟩
      · simp at h2
      rcases d2 with _ | ⟨x, d2⟩
      · exact ⟨e1, e2, e3, e4, rfl⟩
      · simp at h2
    exact arxivIdAt_shape4 a b c d e1 e2 e3 e4 s ⟨ha, hb, hcc, hdd⟩
      ⟨hd2 e1 (by simp), hd2 e2 (by simp), hd2 e3 (by simp), hd2 e4 (by simp)⟩ hs
  · obtain ⟨e1, e2, e3, e4, e5, rfl⟩ : ∃ e1 e2 e3 e4 e5, d2 = [e1, e2, e3, e4, e5] := by
      rcases d2 with _ | ⟨e1, d2⟩
      · simp at h2
      rcases d2 with _ | ⟨e2, d2⟩
      · simp at h2
      rcases d2 with _ | ⟨e3, d2⟩
      · simp at h2
      rcases d2 with _ | ⟨e4, d2⟩
      · simp at h2
      rcases d2 with _ | ⟨e5, d2⟩
      · simp at h2
      rcases d2 with _ | ⟨x, d2⟩
      · exact ⟨e1, e2, e3, e4, e5, rfl⟩
      · simp at h2
    exact arxivIdAt_shape5 a b c d e1 e2 e3 e4 e5 s ⟨ha, hb, hcc, hdd⟩
      ⟨hd2 e1 (by simp), hd2 e2 (by simp), hd2 e3 (by simp), hd2 e4 (by simp),
        hd2 e5 (by simp)⟩

theorem isDigit_ne_a_h {c : Char} (h : c.isDigit = true) : c ≠ 'a' ∧ c ≠ 'h' :=
  ⟨fun he => by rw [he] at h; exact absurd h (by decide),
   fun he => by rw [he] at h; exact absurd h (by decide)⟩

theorem extract_abs_https (tail id : List Char) (hmatch : arxivIdAt tail = some id) :
    extract_canonical_key ⟨"", ⟨"https://arxiv.org/abs/".data ++ tail⟩, "", "", ""⟩ =
      some ⟨"arxiv:".data ++ id⟩ := by
  have hs : searchArxiv ("arxiv.org/abs/".data)
      ("https://arxiv.org/abs/".data ++ tail) = some id := by
    rw [show ("https://arxiv.org/abs/".data : List Char) =
      "https://".data ++ "arxiv.org/abs/".data from by decide, List.append_assoc,
      searchArxiv_skip ("arxiv.org/abs/".data) ("https://".data) _ (by decide),
      show ("arxiv.org/abs/".data : List Char) = 'a' :: "rxiv.org/abs/".data from by decide]
    exact searchArxiv_here _ _ tail id hmatch
  simp at hs
  simp [extract_canonical_key, _ARXIV_ID_PATTERNS, List.findSome?_cons, hs]

theorem extract_abs_http (tail id : List Char) (hmatch : arxivIdAt tail = some id) :
    extract_canonical_key ⟨"", ⟨"http://arxiv.org/abs/".data ++ tail⟩, "", "", ""⟩ =
      some ⟨"arxiv:".data ++ id⟩ := by
  have hs : searchArxiv ("arxiv.org/abs/".data)
      ("http://arxiv.org/abs/".data ++ tail) = some id := by
    rw [show ("http://arxiv.org/abs/".data : List Char) =
      "http://".data ++ "arxiv.org/abs/".data from by decide, List.append_assoc,
      searchArxiv_skip ("arxiv.org/abs/".data) ("http://".data) _ (by decide),
      show ("arxiv.org/abs/".data : List Char) = 'a' :: "rxiv.org/abs/".data from by decide]
    exact searchArxiv_here _ _ tail id hmatch
  simp at hs
  simp [extract_canonical_key, _ARXIV_ID_PATTERNS, List.findSome?_cons, hs]

theorem extract_pdf (tail id : List Char) (hmatch : arxivIdAt tail = some id)
    (hno : ∀ c ∈ tail, c ≠ 'a') :
    extract_canonical_key ⟨"", ⟨"https://arxiv.org/pdf/".data ++ tail⟩, "", "", ""⟩ =
      some ⟨"arxiv:".data ++ id⟩ := by
  have hfail : searchArxiv ("arxiv.org/abs/".data)
      ("https://arxiv.org/pdf/".data ++ tail) = none := by
    rw [searchArxiv_skip ("arxiv.org/abs/".data) ("https://arxiv.org/pdf/".data)
      tail (by decide),
      show ("arxiv.org/abs/".data : List Char) = 'a' :: "rxiv.org/abs/".data from by decide]
    exact searchArxiv_eq_none_of_no_head _ _ tail hno
  have hs : searchArxiv ("arxiv.org/pdf/".data)
      ("https://arxiv.org/pdf/".data ++ tail) = some id := by
    rw [show ("https://arxiv.org/pdf/".data : List Char) =
      "https://".data ++ "arxiv.org/pdf/".data from by decide, List.append_assoc,
      searchArxiv_skip ("arxiv.org/pdf/".data) ("https://".data) _ (by decide),
      show ("arxiv.org/pdf/".data : List Char) = 'a' :: "rxiv.org/pdf/".data from by decide]
    exact searchArxiv_here _ _ tail id hmatch
  simp at hfail hs
  simp [extract_canonical_key, _ARXIV_ID_PATTERNS, List.findSome?_cons, hfail, hs]

theorem extract_hf (tail id : List Char) (hmatch : arxivIdAt tail = some id)
    (hno : ∀ c ∈ tail, c ≠ 'a' ∧ c ≠ 'h') :
    extract_canonical_key
      ⟨"", ⟨"https://huggingface.co/papers/".data ++ tail⟩, "", "", ""⟩ =
      some ⟨"arxiv:".data ++ id⟩ := by
  have hfail1 : searchArxiv ("arxiv.org/abs/".data)
      ("https://huggingface.co/papers/".data ++ tail) = none := by
    rw [searchArxiv_skip ("arxiv.org/abs/".data)
      ("https://huggingface.co/papers/".data) tail (by decide),
      show ("arxiv.org/abs/".data : List Char) = 'a' :: "rxiv.org/abs/".data from by decide]
    exact searchArxiv_eq_none_of_no_head _ _ tail (fun c hc => (hno c hc).1)
  have hfail2 : searchArxiv ("arxiv.org/pdf/".data)
      ("https://huggingface.co/papers/".data ++ tail) = none := by
    rw [searchArxiv_skip ("arxiv.org/pdf/".data)
      ("https://huggingface.co/papers/".data) tail (by decide),
      show ("arxiv.org/pdf/".data : List Char) = 'a' :: "rxiv.org/pdf/".data from by decide]
    exact searchArxiv_eq_none_of_no_head _ _ tail (fun c hc => (hno c hc).1)
  have hs : searchArxiv ("huggingface.co/papers/".data)
      ("https://huggingface.co/papers/".data ++ tail) = some id := by
    rw [show ("https://huggingface.co/papers/".data : List Char) =
      "https://".data ++ "huggingface.co/papers/".data from by decide, List.append_assoc,
      searchArxiv_skip ("huggingface.co/papers/".data) ("https://".data) _ (by decide),
      show ("huggingface.co/papers/".data : List Char) =
        'h' :: "uggingface.co/papers/".data from by decide]
    exact searchArxiv_here _ _ tail id hmatch
  simp at hfail1 hfail2 hs
  simp [extract_canonical_key, _ARXIV_ID_PATTERNS, List.findSome?_cons,
    hfail1, hfail2, hs]

/-- C5: for every arXiv identifier of the recognized numeric form (four
digits, a dot, then four or five digits) and every digit version tag, the
`arxiv.org/abs/` URL (with or without a version suffix, https or http),
the `arxiv.org/pdf/` URL (bare or with version suffix and `.pdf`
extension), and the `huggingface.co/papers/` URL all extract the
identical canonical key string `"arxiv:" ++ id`. -/
theorem canonical_key_cross_source (d1 d2 ds : List Char)
    (h1 : d1.length = 4) (hd1 : ∀ c ∈ d1, c.isDigit = true)
    (h2 : d2.length = 4 ∨ d2.length = 5) (hd2 : ∀ c ∈ d2, c.isDigit = true)
    (hds : ∀ c ∈ ds, c.isDigit = true) :
    extract_canonical_key
        ⟨"", ⟨"https://arxiv.org/abs/".data ++ (d1 ++ '.' :: d2)⟩, "", "", ""⟩ =
      some ⟨"arxiv:".data ++ (d1 ++ '.' :: d2)⟩ ∧
    extract_canonical_key
        ⟨"", ⟨"http://arxiv.org/abs/".data ++ (d1 ++ '.' :: (d2 ++ 'v' :: ds))⟩,
          "", "", ""⟩ =
      some ⟨"arxiv:".data ++ (d1 ++ '.' :: d2)⟩ ∧
    extract_canonical_key
        ⟨"", ⟨"https://arxiv.org/pdf/".data ++ (d1 ++ '.' :: d2)⟩, "", "", ""⟩ =
      some ⟨"arxiv:".data ++ (d1 ++ '.' :: d2)⟩ ∧
    extract_canonical_key
        ⟨"", ⟨"https://arxiv.org/pdf/".data ++
          (d1 ++ '.' :: (d2 ++ 'v' :: (ds ++ ".pdf".data)))⟩, "", "", ""⟩ =
      some ⟨"arxiv:".data ++ (d1 ++ '.' :: d2)⟩ ∧
    extract_canonical_key
        ⟨"", ⟨"https://huggingface.co/papers/".data ++ (d1 ++ '.' :: d2)⟩,
          "", "", ""⟩ =
      some ⟨"arxiv:".data ++ (d1 ++ '.' :: d2)⟩ := by
  have hid0 : arxivIdAt (d1 ++ '.' :: d2) = some (d1 ++ '.' :: d2) := by
    have := arxivIdAt_id d1 d2 [] h1 hd1 h2 hd2 (by decide)
    simpa using this
  have hvtake : ∀ (l : List Char) (c0 : Char), c0 ∈ List.take 1 ('v' :: l) →
      c0.isDigit = false := by
    intro l c0 hc0
    rw [show List.take 1 ('v' :: l) = ['v'] from rfl] at hc0
    rw [List.mem_singleton.mp hc0]
    decide
  have hidv : arxivIdAt (d1 ++ '.' :: (d2 ++ 'v' :: ds)) = some (d1 ++ '.' :: d2) :=
    arxivIdAt_id d1 d2 ('v' :: ds) h1 hd1 h2 hd2 (hvtake ds)
  have hidp : arxivIdAt (d1 ++ '.' :: (d2 ++ 'v' :: (ds ++ ".pdf".data))) =
      some (d1 ++ '.' :: d2) :=
    arxivIdAt_id d1 d2 ('v' :: (ds ++ ".pdf".data)) h1 hd1 h2 hd2
      (hvtake (ds ++ ".pdf".data))
  have hno0 : ∀ c ∈ d1 ++ '.' :: d2, c ≠ 'a' ∧ c ≠ 'h' := by
    intro c hc
    rcases List.mem_append.mp hc with hc | hc
    · exact isDigit_ne_a_h (hd1 c hc)
    · rcases List.mem_cons.mp hc with rfl | hc
      · exact ⟨by decide, by decide⟩
      · exact isDigit_ne_a_h (hd2 c hc)
  have hnop : ∀ c ∈ d1 ++ '.' :: (d2 ++ 'v' :: (ds ++ ".pdf".data)),
      c ≠ 'a' ∧ c ≠ 'h' := by
    intro c hc
    rcases List.mem_append.mp hc with hc | hc
    · exact isDigit_ne_a_h (hd1 c hc)
    · rcases List.mem_cons.mp hc with rfl | hc
      · exact ⟨by decide, by decide⟩
      · rcases List.mem_append.mp hc with hc | hc
        · exact isDigit_ne_a_h (hd2 c hc)
        · rcases List.mem_cons.mp hc with rfl | hc
          · exact ⟨by decide, by decide⟩
          · rcases List.mem_append.mp hc with hc | hc
            · exact isDigit_ne_a_h (hds c hc)
            · have : c = '.' ∨ c = 'p' ∨ c = 'd' ∨ c = 'f' := by
                have hm : c ∈ ".pdf".data := hc
                rw [show (".pdf".data : List Char) = ['.', 'p', 'd', 'f'] from by decide]
                  at hm
                simpa using hm
              rcases this with rfl | rfl | rfl | rfl <;> exact ⟨by decide, by decide⟩
  refine ⟨extract_abs_https _ _ hid0, extract_abs_http _ _ hidv,
    extract_pdf _ _ hid0 (fun c hc => (hno0 c hc).1),
    extract_pdf _ _ hidp (fun c hc => (hnop c hc).1),
    extract_hf _ _ hid0 hno0⟩

/-- Witness for C5 at the identifier 2602.06570 with version tag 1. -/
theorem canonical_key_cross_source_witness :
    extract_canonical_key
        ⟨"", ⟨"https://arxiv.org/abs/".data ++ ("2602".data ++ '.' :: "06570".data)⟩,
          "", "", ""⟩ =
      some ⟨"arxiv:".data ++ ("2602".data ++ '.' :: "06570".data)⟩ ∧
    extract_canonical_key
        ⟨"", ⟨"http://arxiv.org/abs/".data ++
          ("2602".data ++ '.' :: ("06570".data ++ 'v' :: "1".data))⟩, "", "", ""⟩ =
      some ⟨"arxiv:".data ++ ("2602".data ++ '.' :: "06570".data)⟩ ∧
    extract_canonical_key
        ⟨"", ⟨"https://arxiv.org/pdf/".data ++ ("2602".data ++ '.' :: "06570".data)⟩,
          "", "", ""⟩ =
      some ⟨"arxiv:".data ++ ("2602".data ++ '.' :: "06570".data)⟩ ∧
    extract_canonical_key
        ⟨"", ⟨"https://arxiv.org/pdf/".data ++
          ("2602".data ++ '.' :: ("06570".data ++ 'v' :: ("1".data ++ ".pdf".data)))⟩,
          "", "", ""⟩ =
      some ⟨"arxiv:".data ++ ("2602".data ++ '.' :: "06570".data)⟩ ∧
    extract_canonical_key
        ⟨"", ⟨"https://huggingface.co/papers/".data ++
          ("2602".data ++ '.' :: "06570".data)⟩, "", "", ""⟩ =
      some ⟨"arxiv:".data ++ ("2602".data ++ '.' :: "06570".data)⟩ :=
  canonical_key_cross_source "2602".data "06570".data "1".data
    (by decide) (by decide) (Or.inr (by decide)) (by decide) (by decide)

/-! ## Claim C6 -/

/-- A leading "www." label is erased by the host-normalization stage. -/
theorem stripWww_www (h : List Char) : stripWww ("www.".data ++ h) = h := by
  unfold stripWww
  rw [show ("www.".data ++ h).take 4 = "www.".data from by
    rw [show (4 : Nat) = ("www.".data).length from by decide]
    exact List.take_left "www.".data h]
  rw [if_pos rfl]
  rw [show (4 : Nat) = ("www.".data).length from by decide]
  exact List.drop_left "www.".data h

/-- Hosts not starting with "www." pass the host stage unchanged. -/
theorem stripWww_no_www {h : List Char} (hh : h.take 4 ≠ "www.".data) :
    stripWww h = h := by
  unfold stripWww
  rw [if_neg hh]

/-- A trailing slash is erased by the path-normalization stage. -/
theorem rstripSlashes_append_slash (p : List Char) :
    rstripSlashes (p ++ ['/']) = rstripSlashes p := by
  unfold rstripSlashes
  rw [List.reverse_append]
  rfl

/-- The query stage output is determined by the tracking-filtered
parameter dict. -/
theorem normalizeQuery_eq (q : List Char) :
    normalizeQuery q =
      if stripTracking (parse_qs q) = [] then []
      else urlencodeData (stripTracking (parse_qs q)) := by
  unfold normalizeQuery
  by_cases hq : q = []
  · subst hq
    rfl
  · rw [if_pos hq]
    by_cases hf : stripTracking (parse_qs q) = []
    · rw [if_pos hf, if_neg (not_not_intro hf)]
    · rw [if_neg hf, if_pos hf]

theorem normalizeQuery_eq_of_filtered_eq {q1 q2 : List Char}
    (h : stripTracking (parse_qs q1) = stripTracking (parse_qs q2)) :
    normalizeQuery q1 = normalizeQuery q2 := by
  rw [normalizeQuery_eq, normalizeQuery_eq, h]

/-- C6: two URLs that differ only cosmetically normalize identically.
The claim's list of tolerated differences maps onto the code's stages:
the scheme (http vs https) and the fragment need no agreement at all —
the scheme is discarded and the fragment is parsed off; a leading "www."
label is erased by the host stage (`stripWww_www` / `stripWww_no_www`);
a trailing slash is erased by the path stage
(`rstripSlashes_append_slash`); tracking query parameters are erased by
the filter stage, so only the filtered parameter dicts must agree. -/
theorem normalize_url_equiv (u1 u2 : String)
    (h1 : trimData u1.data ≠ []) (h2 : trimData u2.data ≠ [])
    (hhost : stripWww (hostnameOf (pyUrlparse (trimData u1.data)).netloc) =
             stripWww (hostnameOf (pyUrlparse (trimData u2.data)).netloc))
    (hport : portOfNetloc (pyUrlparse (trimData u1.data)).netloc =
             portOfNetloc (pyUrlparse (trimData u2.data)).netloc)
    (hpath : rstripSlashes (pyUrlparse (trimData u1.data)).path =
             rstripSlashes (pyUrlparse (trimData u2.data)).path)
    (hquery : stripTracking (parse_qs (pyUrlparse (trimData u1.data)).query) =
              stripTracking (parse_qs (pyUrlparse (trimData u2.data)).query)) :
    normalize_url u1 = normalize_url u2 := by
  unfold normalize_url
  simp only [normalizeUrlData]
  rw [if_neg h1, if_neg h2, hhost, hport, hpath,
    normalizeQuery_eq_of_filtered_eq hquery]

/-- Witness for C6: scheme, "www.", trailing slash, a tracking parameter
and a fragment all differ; the normalized URLs agree. -/
theorem normalize_url_equiv_witness :
    normalize_url "http://www.Example.com/a/b/?utm_source=x&q=1#frag" =
      normalize_url "https://example.com/a/b?q=1" :=
  normalize_url_equiv _ _ (by decide) (by decide) (by decide) (by decide)
    (by decide) (by decide)

end LlmNews
